import Mathlib

/-!
Shallow embedding of `src/NinjaTime.py`, a converter from ninja's
`.ninja_log` build log to the Chrome trace-event JSON format, together
with a verification of the specification's claims about it.

Modelling conventions:
* Python strings are Lean `String`s.  A "line" obtained by iterating over
  an open file keeps its trailing newline character, exactly as Python
  yields it; `f.readline()` at end of file yields `""`.
* Python integers are `Int` (arbitrary precision, signed).
* `raise`/`exit(1)` paths are the `Except.error` branch.
* Mutation of a `Target`'s `thread` attribute is modelled by returning an
  updated copy; `assign_threads` tags each target with its position in the
  arrival-order list so that the sweep's updates can be written back.
-/

/-- Characters stripped by Python `str.rstrip()` (the ASCII whitespace
characters; the log format never contains other Unicode whitespace). -/
def isPySpace (c : Char) : Bool :=
  c == ' ' || c == '\t' || c == '\n' || c == '\r' || c == '\x0b' || c == '\x0c'

/-- Model of Python `s.rstrip()`. -/
def pyRstrip (s : String) : String :=
  String.mk ((s.data.reverse.dropWhile isPySpace).reverse)

/-- Model of Python `s.split('\t')` on the character list: split at every
tab, keeping empty pieces, so that `"".split('\t') == ['']`. -/
def splitTabChars : List Char → List (List Char)
  | [] => [[]]
  | c :: cs =>
    if c == '\t' then [] :: splitTabChars cs
    else
      match splitTabChars cs with
      | r :: rs => (c :: r) :: rs
      | [] => [[c]]

/-- Model of Python `s.split('\t')`. -/
def pySplitTab (s : String) : List String :=
  (splitTabChars s.data).map String.mk

/-- Strip whitespace from both ends, as Python `int()` does before
parsing. -/
def pyStripWs (s : List Char) : List Char :=
  ((s.dropWhile isPySpace).reverse.dropWhile isPySpace).reverse

/-- The rest of a digit run after its first digit: further digits, with a
single underscore allowed between two digits (`int("1_0") == 10`, while
`"1_"`, `"_1"` and `"1__0"` are rejected), accumulating the value. -/
def digitPartAux (acc : Nat) : List Char → Option Nat
  | [] => some acc
  | '_' :: c :: cs =>
    if c.isDigit then digitPartAux (acc * 10 + (c.toNat - Char.toNat '0')) cs else none
  | c :: cs =>
    if c.isDigit then digitPartAux (acc * 10 + (c.toNat - Char.toNat '0')) cs else none

/-- A digit run: one or more digits with single underscores between
digits. -/
def digitPart : List Char → Option Nat
  | [] => none
  | c :: cs => if c.isDigit then digitPartAux (c.toNat - Char.toNat '0') cs else none

/-- Model of Python `int(s)` on a decimal string: surrounding whitespace
is stripped (`int(" 5") == 5`), then an optional sign directly precedes a
digit run in which single underscores may separate digits.  A leading
minus sign IS accepted: `int("-1") == -1`.  Only the ASCII whitespace
characters and ASCII digits are modelled; the ninja log format is ASCII. -/
def pyInt (s : String) : Option Int :=
  match pyStripWs s.data with
  | '-' :: ds => (digitPart ds).map (fun n => -(n : Int))
  | '+' :: ds => (digitPart ds).map (fun n => (n : Int))
  | ds => (digitPart ds).map (fun n => (n : Int))

/-- Consume one or more characters satisfying `p`; the regex pieces
`[\t ]+` are greedy, and since the following literal characters are never
in the class, greedy matching without backtracking is exact here. -/
def dropWhile1 (p : Char → Bool) : List Char → Option (List Char)
  | [] => none
  | c :: cs => if p c then some (cs.dropWhile p) else none

/-- Strip a literal character sequence from the front. -/
def stripLit : List Char → List Char → Option (List Char)
  | [], s => some s
  | _ :: _, [] => none
  | l :: ls, c :: cs => if c == l then stripLit ls cs else none

def isTabSpace (c : Char) : Bool := c == '\t' || c == ' '

/-- Model of `ninja_log_expr.match(line)` for the compiled pattern
`#[\t ]+ninja[\t ]+log[\t ]+v(\d)`: a prefix match anchored at the start
of the line (`re.match` does not require the whole line to be consumed),
returning the single captured digit. -/
def ninjaLogMatch (line : String) : Option Nat :=
  match line.data with
  | '#' :: rest =>
    (dropWhile1 isTabSpace rest).bind fun r1 =>
    (stripLit ['n', 'i', 'n', 'j', 'a'] r1).bind fun r2 =>
    (dropWhile1 isTabSpace r2).bind fun r3 =>
    (stripLit ['l', 'o', 'g'] r3).bind fun r4 =>
    (dropWhile1 isTabSpace r4).bind fun r5 =>
    (stripLit ['v'] r5).bind fun r6 =>
    match r6 with
    | c :: _ => if c.isDigit then some (c.toNat - Char.toNat '0') else none
    | [] => none
  | _ => none

/-- The exception `VersionError(version_good, version)`. -/
structure VersionError where
  good_version : Nat
  bad_version : Nat
deriving Repr, DecidableEq

/-- The `allowed_versions` list in `check_version`. -/
def allowed_versions : List Nat := [5]

/-- Model of Python `min(xs, key=key)`: the first element attaining the
minimal key ( `none` on an empty list, where Python raises). -/
def pyMinByKey (key : Nat → Nat) : List Nat → Option Nat
  | [] => none
  | x :: xs => some (xs.foldl (fun acc y => if key y < key acc then y else acc) x)

/-- Model of `check_version(line)`.  `ok none` means the line is skipped
(the loop keeps scanning), `ok (some v)` is an accepted version, and
`error` models the raised `VersionError`. -/
def check_version (line : String) : Except VersionError (Option Nat) :=
  if line ≠ "" ∧ line.data.head? ≠ some '#' then .ok none
  else
    match ninjaLogMatch line with
    | none => .ok none
    | some version =>
      if version ∈ allowed_versions then .ok (some version)
      else
        match pyMinByKey (fun x => ((x : Int) - (version : Int)).natAbs) allowed_versions with
        | some closest => .error ⟨closest, version⟩
        | none => .ok none

/-- One parsed log line.  `thread` is `None` until the scheduler sets it. -/
structure Target where
  start : Int
  «end» : Int
  name : String
  hash : String
  thread : Option Nat
deriving Repr, DecidableEq

/-- The `period` property: `end - start`. -/
def Target.period (t : Target) : Int := t.«end» - t.start

/-- A `Build` holds its targets in arrival order (`Build.targets`). -/
abbrev Build := List Target

/-- Model of `Build.__contains__(self, target)`.  NOTE: it compares target
NAMES only; the `hash` field plays no part (unlike `Target.__eq__`, which
compares name and hash).  The `type(target) == Target` guard is always
satisfied in our typed model. -/
def buildContains (build : Build) (target : Target) : Bool :=
  build.any (fun t => t.name == target.name)

/-- Model of `need_new_build(current_build, new_target)`. -/
def need_new_build (current_build : Build) (new_target : Target) : Bool :=
  match current_build.getLast? with
  | none => false
  | some last =>
    if buildContains current_build new_target then true
    else decide (new_target.«end» < last.«end»)

/-- The two shapes of Python `ValueError` that `read_log` can raise while
processing a body line. -/
inductive PyError where
  /-- Unpacking `line.rstrip().split('\t')` into five variables fails; the
  exception message reports the expected and actual field counts (it does
  NOT carry the raw line). -/
  | valueErrorUnpack (expected got : Nat)
  /-- `int(...)` inside `Target.__init__` fails; the exception message
  carries the offending field (not the whole line). -/
  | valueErrorInt (literal : String)
deriving Repr, DecidableEq

/-- Model of `Target.__init__(self, start, end, name, target_hash)`:
converts `start` and `end` with `int(...)` and stores the rest verbatim;
`thread` starts as `None`. -/
def Target.init (start : String) («end» : String) (name : String)
    (target_hash : String) : Except PyError Target :=
  match pyInt start with
  | none => .error (.valueErrorInt start)
  | some s =>
    match pyInt «end» with
    | none => .error (.valueErrorInt «end»)
    | some e => .ok { start := s, «end» := e, name := name, hash := target_hash, thread := none }

/-- Errors that abort `read_log` (and with it the program). -/
inductive LogError where
  /-- A `VersionError` was raised; `read_log` prints it and calls `exit(1)`. -/
  | version (e : VersionError)
  /-- A `ValueError` propagated out of the body loop. -/
  | value (e : PyError)
  /-- Marks inputs on which the `while version is None:` loop never
  terminates: once the file is exhausted `f.readline()` returns `""`
  forever, and `check_version("")` returns `None`, so the loop guard never
  becomes false. -/
  | hangs
deriving Repr, DecidableEq

/-- One body line of `read_log`'s `for line in f:` loop: `ok none` when the
line is skipped by `if line == '' or line[0] == '#': continue`, otherwise
the line is rstripped, split at tabs into exactly five fields and turned
into a `Target`. -/
def parseLine (line : String) : Except PyError (Option Target) :=
  if line = "" ∨ line.data.head? = some '#' then .ok none
  else
    match pySplitTab (pyRstrip line) with
    | [startF, endF, _, tname, thash] =>
      match Target.init startF endF tname thash with
      | .ok t => .ok (some t)
      | .error e => .error e
    | fields => .error (.valueErrorUnpack 5 fields.length)

/-- The version-seeking loop of `read_log` on the file's finite list of
lines.  `ok none` means the lines ran out with no marker found; the real
loop then keeps reading `""` forever (see `LogError.hangs`). -/
def findVersion : List String → Except VersionError (Option (Nat × List String))
  | [] => .ok none
  | l :: ls =>
    match check_version l with
    | .error e => .error e
    | .ok none => findVersion ls
    | .ok (some v) => .ok (some (v, ls))

/-- The body loop of `read_log`: `builds` starts as `[Build()]`; each
parsed target either starts a fresh build or is appended to the last one. -/
def read_body (builds : List Build) : List String → Except LogError (List Build)
  | [] => .ok builds
  | line :: rest =>
    match parseLine line with
    | .error e => .error (.value e)
    | .ok none => read_body builds rest
    | .ok (some new_target) =>
      let current_build := builds.getLast?.getD []
      if need_new_build current_build new_target then
        read_body (builds ++ [[new_target]]) rest
      else
        read_body (builds.dropLast ++ [current_build ++ [new_target]]) rest

/-- Model of `read_log(fname)` on the file's list of lines. -/
def read_log (lines : List String) : Except LogError (List Build) :=
  match findVersion lines with
  | .error e => .error (.version e)
  | .ok none => .error .hangs
  | .ok (some (_, rest)) => read_body [[]] rest

/-- Insert a tagged target into an already sorted list, after every element
whose start is `≤` its own start. -/
def insTarget (x : Nat × Target) : List (Nat × Target) → List (Nat × Target)
  | [] => [x]
  | y :: ys => if y.2.start ≤ x.2.start then y :: insTarget x ys else x :: y :: ys

/-- Model of `sorted(build.targets, key=lambda t: t.start)` on the tagged
targets, as a stable insertion sort.  Python's `sorted` is a stable sort by
the same key, and any two stable sorts under the same key produce the same
list, so this is extensionally exact. -/
def pySorted (l : List (Nat × Target)) : List (Nat × Target) :=
  l.foldl (fun acc x => insTarget x acc) []

/-- The slot scan in `assign_threads`: the first index whose recorded end
time is `≤` the record's start (non-strict availability). -/
def findSlot (threads : List Int) (s : Int) : Option Nat :=
  match threads with
  | [] => none
  | e :: rest => if e ≤ s then some 0 else (findSlot rest s).map (· + 1)

/-- One iteration of the `for target in targets:` loop body of
`assign_threads`: scan the slots in index order; on success overwrite the
slot's end time, otherwise (when `target.thread is None`) append a fresh
slot whose index is the current slot count. -/
def assignTarget (threads : List Int) (t : Target) : Target × List Int :=
  match findSlot threads t.start with
  | some i => ({ t with thread := some i }, threads.set i t.«end»)
  | none =>
    match t.thread with
    | none => ({ t with thread := some threads.length }, threads ++ [t.«end»])
    | some _ => (t, threads)

/-- The whole loop of `assign_threads`, on position-tagged targets (the
tag is the target's index in the arrival-order list; Python mutates the
shared `Target` objects, and the tags let us write the updates back). -/
def sweep (threads : List Int) : List (Nat × Target) → List (Nat × Target) × List Int
  | [] => ([], threads)
  | (j, t) :: rest =>
    let p := assignTarget threads t
    let q := sweep p.2 rest
    ((j, p.1) :: q.1, q.2)

/-- Model of `assign_threads(build)`: `sorted(build.targets, key=...)`
makes a sorted copy (stable sort by start time), the sweep starts from a
single slot with end time `0`, and the result is the original
arrival-order list with every target's `thread` attribute updated. -/
def assign_threads (build : Build) : Build :=
  let sortedTargets := pySorted build.enum
  let out := (sweep [0] sortedTargets).1
  build.enum.map (fun p =>
    match out.find? (fun q => q.1 == p.1) with
    | some q => q.2
    | none => p.2)

/-- One trace event, the dictionary built by `target_to_dict`. -/
structure TraceEvent where
  name : String
  cat : String
  ph : String
  ts : Int
  dur : Int
  pid : Nat
  tid : Option Nat
  args : List (String × String)
deriving Repr, DecidableEq

/-- Model of `target_to_dict(target, pid)`. -/
def target_to_dict (target : Target) (pid : Nat) : TraceEvent :=
  { name := target.name
    cat := "targets"
    ph := "X"
    ts := target.start * 1000
    dur := target.period * 1000
    pid := pid
    tid := target.thread
    args := [] }

/-- The list comprehension in `main`:
`[target_to_dict(t, pid) for pid, build in enumerate(read_log(f)) for t in assign_threads(build)]`. -/
def emit (builds : List Build) : List TraceEvent :=
  (builds.enum).flatMap (fun p => (assign_threads p.2).map (fun t => target_to_dict t p.1))

/-- The full pipeline from the file's lines to the emitted JSON array of
events (the array `main` passes to `json.dumps`). -/
def mainEvents (lines : List String) : Except LogError (List TraceEvent) :=
  (read_log lines).map emit

/-! Specification-side definitions used to state the claims. -/

/-- Observable part of a target apart from its `thread` slot. -/
def obs (t : Target) : Int × Int × String × String := (t.start, t.«end», t.name, t.hash)

/-- Number of records of `ts` in flight at instant `x`, a record occupying
the half-open span from its start (inclusive) to its end (exclusive) —
this is the non-strict availability rule: a record starting exactly when
another ends is not concurrent with it. -/
def inFlight (ts : List Target) (x : Int) : Nat :=
  ts.countP (fun t => decide (t.start ≤ x) && decide (x < t.«end»))

/-- Maximum number of records of `ts` simultaneously in flight over all
instants (the maximum is attained at some record's start instant, see
`inFlight_le_maxInFlight`). -/
def maxInFlight (ts : List Target) : Nat :=
  (ts.map (fun t => inFlight ts t.start)).foldr max 0

/-- Number of distinct slot indices assigned to the records of `ts`. -/
def usedSlotCount (ts : List Target) : Nat :=
  ((ts.filterMap (fun t => t.thread)).dedup).length

/-- The sub-sequence of `ts` assigned to slot `i`. -/
def slotTargets (i : Nat) (ts : List Target) : List Target :=
  ts.filter (fun t => decide (t.thread = some i))

/-- The targets of `l` form a chain whose first start is at least `e`:
each one ends no later than the next one starts. -/
def chainFrom (e : Int) : List Target → Prop
  | [] => True
  | t :: ts => e ≤ t.start ∧ chainFrom t.«end» ts

/-- Chain, with an optional lower bound for the first start (the bound is
a slot's recorded end time; `none` when the slot does not exist yet). -/
def chainAfter : Option Int → List Target → Prop
  | none, [] => True
  | none, t :: ts => chainFrom t.«end» ts
  | some e, l => chainFrom e l

/-- Number of slots busy strictly past instant `x`. -/
def busy (threads : List Int) (x : Int) : Nat :=
  threads.countP (fun e => decide (x < e))

/-- The sorted working copy made by `assign_threads`. -/
def sortedEnum (build : Build) : List (Nat × Target) := pySorted build.enum

/-- The sweep's output list (tagged targets with slots assigned). -/
def sweepOut (build : Build) : List (Nat × Target) := (sweep [0] (sortedEnum build)).1

/-- The sweep's final list of slot end times. -/
def sweepThreads (build : Build) : List Int := (sweep [0] (sortedEnum build)).2

/-- Two targets in sweep order never violate the slot discipline: if they
share a slot, the earlier one ends no later than the later one starts. -/
def slotOrdered (a b : Target) : Prop :=
  ∀ i : Nat, a.thread = some i → b.thread = some i → a.«end» ≤ b.start

/-! Lemmas about the stable sort. -/

lemma insTarget_perm (x : Nat × Target) (l : List (Nat × Target)) :
    (insTarget x l).Perm (x :: l) := by
  induction l with
  | nil => exact List.Perm.refl _
  | cons y ys ih =>
    by_cases h : y.2.start ≤ x.2.start
    · simpa [insTarget, h] using ((ih.cons y).trans (List.Perm.swap x y ys))
    · simp [insTarget, h]

lemma foldl_ins_perm (l : List (Nat × Target)) :
    ∀ acc, (l.foldl (fun acc x => insTarget x acc) acc).Perm (acc ++ l) := by
  induction l with
  | nil => intro acc; simp
  | cons x xs ih =>
    intro acc
    have h1 := ih (insTarget x acc)
    have h2 : ((insTarget x acc) ++ xs).Perm ((x :: acc) ++ xs) :=
      (insTarget_perm x acc).append_right xs
    simpa using (h1.trans h2).trans List.perm_middle.symm

lemma pySorted_perm (l : List (Nat × Target)) : (pySorted l).Perm l := by
  simpa using foldl_ins_perm l []

lemma insTarget_pairwise {x : Nat × Target} {l : List (Nat × Target)}
    (h : l.Pairwise (fun a b => a.2.start ≤ b.2.start)) :
    (insTarget x l).Pairwise (fun a b => a.2.start ≤ b.2.start) := by
  induction l with
  | nil => simp [insTarget]
  | cons y ys ih =>
    rcases List.pairwise_cons.mp h with ⟨hy, hys⟩
    by_cases hc : y.2.start ≤ x.2.start
    · simp only [insTarget, hc, if_pos]
      refine List.pairwise_cons.mpr ⟨?_, ih hys⟩
      intro b hb
      have hb' : b ∈ x :: ys := (insTarget_perm x ys).mem_iff.mp hb
      rcases List.mem_cons.mp hb' with rfl | hb''
      · exact hc
      · exact hy b hb''
    · simp only [insTarget, hc, if_neg, not_false_iff]
      have hx : x.2.start ≤ y.2.start := le_of_lt (lt_of_not_le hc)
      refine List.pairwise_cons.mpr ⟨?_, h⟩
      intro b hb
      rcases List.mem_cons.mp hb with rfl | hb'
      · exact hx
      · exact le_trans hx (hy b hb')

lemma pySorted_pairwise (l : List (Nat × Target)) :
    (pySorted l).Pairwise (fun a b => a.2.start ≤ b.2.start) := by
  suffices h : ∀ acc, acc.Pairwise (fun a b : Nat × Target => a.2.start ≤ b.2.start) →
      (l.foldl (fun acc x => insTarget x acc) acc).Pairwise
        (fun a b => a.2.start ≤ b.2.start) by
    exact h [] (by simp)
  induction l with
  | nil => intro acc hacc; simpa using hacc
  | cons x xs ih => intro acc hacc; exact ih _ (insTarget_pairwise hacc)

/-! Lemmas about the slot scan. -/

lemma findSlot_none {threads : List Int} {s : Int} (h : findSlot threads s = none) :
    ∀ e ∈ threads, s < e := by
  induction threads with
  | nil => intro e he; cases he
  | cons a rest ih =>
    intro e he
    by_cases ha : a ≤ s
    · simp [findSlot, ha] at h
    · rcases List.mem_cons.mp he with rfl | he'
      · exact lt_of_not_le ha
      · refine ih ?_ e he'
        simp only [findSlot, ha, if_neg, not_false_iff] at h
        exact Option.map_eq_none.mp h

lemma findSlot_some {threads : List Int} {s : Int} {i : Nat}
    (h : findSlot threads s = some i) :
    ∃ hi : i < threads.length, threads.get ⟨i, hi⟩ ≤ s := by
  induction threads generalizing i with
  | nil => cases h
  | cons a rest ih =>
    by_cases ha : a ≤ s
    · simp only [findSlot, ha, if_pos] at h
      cases h
      exact ⟨by simp, by simpa using ha⟩
    · simp only [findSlot, ha, if_neg, not_false_iff] at h
      rcases Option.map_eq_some.mp h with ⟨i', hi', rfl⟩
      rcases ih hi' with ⟨hlt, hle⟩
      exact ⟨by simpa using Nat.succ_lt_succ hlt, by simpa using hle⟩

/-! Lemmas about one step of the sweep. -/

lemma assignTarget_obs (threads : List Int) (t : Target) :
    obs (assignTarget threads t).1 = obs t := by
  unfold assignTarget
  cases findSlot threads t.start with
  | some i => simp [obs]
  | none => cases t.thread <;> simp [obs]

lemma assignTarget_isSome (threads : List Int) (t : Target) :
    ((assignTarget threads t).1).thread.isSome = true := by
  unfold assignTarget
  cases h : findSlot threads t.start with
  | some i => simp
  | none => cases ht : t.thread <;> simp [ht]

lemma assignTarget_len (threads : List Int) (t : Target) :
    threads.length ≤ (assignTarget threads t).2.length := by
  unfold assignTarget
  cases findSlot threads t.start with
  | some i => simp
  | none => cases t.thread <;> simp

lemma assignTarget_thread_lt (threads : List Int) (t : Target) (ht : t.thread = none) :
    ∀ i, ((assignTarget threads t).1).thread = some i → i < (assignTarget threads t).2.length := by
  unfold assignTarget
  cases hf : findSlot threads t.start with
  | some i0 =>
    intro i hi
    simp only at hi
    cases hi
    rcases findSlot_some hf with ⟨hlt, _⟩
    simpa using hlt
  | none =>
    rw [ht]
    intro i hi
    simp only at hi
    cases hi
    simp

/-! Lemmas about the sweep. -/

lemma sweep_cons (threads : List Int) (j : Nat) (t : Target) (rest : List (Nat × Target)) :
    sweep threads ((j, t) :: rest) =
      ((j, (assignTarget threads t).1) :: (sweep (assignTarget threads t).2 rest).1,
       (sweep (assignTarget threads t).2 rest).2) := rfl

lemma sweep_map_key_obs (l : List (Nat × Target)) (threads : List Int) :
    ((sweep threads l).1).map (fun p => (p.1, obs p.2)) = l.map (fun p => (p.1, obs p.2)) := by
  induction l generalizing threads with
  | nil => rfl
  | cons p rest ih =>
    cases p with
    | mk j t => simp [sweep_cons, ih, assignTarget_obs]

lemma sweep_map_fst (l : List (Nat × Target)) (threads : List Int) :
    ((sweep threads l).1).map Prod.fst = l.map Prod.fst := by
  have h := congrArg (List.map Prod.fst) (sweep_map_key_obs l threads)
  simpa [List.map_map, Function.comp] using h

lemma sweep_isSome (l : List (Nat × Target)) (threads : List Int) :
    ∀ p ∈ (sweep threads l).1, p.2.thread.isSome = true := by
  induction l generalizing threads with
  | nil => intro p hp; cases hp
  | cons q rest ih =>
    cases q with
    | mk j t =>
      intro p hp
      rw [sweep_cons] at hp
      rcases List.mem_cons.mp hp with rfl | hp'
      · exact assignTarget_isSome threads t
      · exact ih _ p hp'

lemma sweep_len_mono (l : List (Nat × Target)) (threads : List Int) :
    threads.length ≤ (sweep threads l).2.length := by
  induction l generalizing threads with
  | nil => exact le_refl _
  | cons q rest ih =>
    cases q with
    | mk j t =>
      rw [sweep_cons]
      exact le_trans (assignTarget_len threads t) (ih _)

lemma sweep_thread_lt (l : List (Nat × Target)) (threads : List Int)
    (h : ∀ p ∈ l, p.2.thread = none) :
    ∀ p ∈ (sweep threads l).1, ∀ i, p.2.thread = some i → i < (sweep threads l).2.length := by
  induction l generalizing threads with
  | nil => intro p hp; cases hp
  | cons q rest ih =>
    cases q with
    | mk j t =>
      intro p hp i hi
      rw [sweep_cons] at hp ⊢
      have hrest : ∀ p ∈ rest, p.2.thread = none := fun p hp => h p (List.mem_cons_of_mem _ hp)
      rcases List.mem_cons.mp hp with rfl | hp'
      · have ht : t.thread = none := h (j, t) (List.mem_cons_self _ _)
        exact lt_of_lt_of_le (assignTarget_thread_lt threads t ht i hi) (sweep_len_mono rest _)
      · exact ih _ hrest p hp' i hi
/-! The per-slot chain invariant of the sweep. -/

lemma slotTargets_cons_of_eq {i : Nat} {t : Target} (ht : t.thread = some i)
    (ts : List Target) : slotTargets i (t :: ts) = t :: slotTargets i ts := by
  simp [slotTargets, List.filter_cons, ht]

lemma slotTargets_cons_of_ne {i : Nat} {t : Target} (ht : t.thread ≠ some i)
    (ts : List Target) : slotTargets i (t :: ts) = slotTargets i ts := by
  simp [slotTargets, List.filter_cons, ht]

lemma chainAfter_nil (o : Option Int) : chainAfter o [] := by
  cases o <;> trivial

lemma sweep_chain (l : List (Nat × Target)) (threads : List Int)
    (h : ∀ p ∈ l, p.2.start ≤ p.2.«end» ∧ p.2.thread = none) (i : Nat) :
    chainAfter threads[i]? (slotTargets i (((sweep threads l).1).map Prod.snd)) := by
  induction l generalizing threads i with
  | nil => exact chainAfter_nil _
  | cons q rest ih =>
    cases q with
    | mk j t =>
      have hse : t.start ≤ t.«end» := (h (j, t) (List.mem_cons_self _ _)).1
      have hth : t.thread = none := (h (j, t) (List.mem_cons_self _ _)).2
      have hrest : ∀ p ∈ rest, p.2.start ≤ p.2.«end» ∧ p.2.thread = none :=
        fun p hp => h p (List.mem_cons_of_mem _ hp)
      cases hf : findSlot threads t.start with
      | some i0 =>
        have ha : assignTarget threads t =
            ({ t with thread := some i0 }, threads.set i0 t.«end») := by
          simp [assignTarget, hf]
        rcases findSlot_some hf with ⟨hlt, hle⟩
        rw [sweep_cons, ha]
        simp only [List.map_cons]
        by_cases hii : i = i0
        · subst hii
          rw [slotTargets_cons_of_eq (show Target.thread _ = some i from rfl)]
          have hx : threads[i]? = some (threads.get ⟨i, hlt⟩) := by
            simp [List.getElem?_eq_getElem hlt]
          rw [hx]
          show chainFrom (threads.get ⟨i, hlt⟩) _
          refine ⟨hle, ?_⟩
          have hIH := ih (threads.set i t.«end») hrest i
          rw [List.getElem?_set_self hlt] at hIH
          exact hIH
        · rw [slotTargets_cons_of_ne (fun he => hii (Option.some.inj he).symm)]
          have hIH := ih (threads.set i0 t.«end») hrest i
          rw [List.getElem?_set_ne (fun he => hii he.symm)] at hIH
          exact hIH
      | none =>
        have ha : assignTarget threads t =
            ({ t with thread := some threads.length }, threads ++ [t.«end»]) := by
          simp [assignTarget, hf, hth]
        rw [sweep_cons, ha]
        simp only [List.map_cons]
        by_cases hii : i = threads.length
        · subst hii
          rw [slotTargets_cons_of_eq (show Target.thread _ = some threads.length from rfl)]
          have hx : threads[threads.length]? = none := by simp
          rw [hx]
          show chainFrom t.«end» _
          have hIH := ih (threads ++ [t.«end»]) hrest threads.length
          have hx2 : (threads ++ [t.«end»])[threads.length]? = some t.«end» := by
            rw [List.getElem?_append_right (le_refl _)]
            simp
          rw [hx2] at hIH
          exact hIH
        · rw [slotTargets_cons_of_ne (fun he => hii (Option.some.inj he).symm)]
          have hIH := ih (threads ++ [t.«end»]) hrest i
          rcases Nat.lt_or_ge i threads.length with hlt | hge
          · rw [List.getElem?_append_left hlt] at hIH
            exact hIH
          · have hge' : threads.length + 1 ≤ i := by omega
            have h1 : threads[i]? = none := List.getElem?_eq_none (by omega)
            have h2 : (threads ++ [t.«end»])[i]? = none :=
              List.getElem?_eq_none (by simp; omega)
            rw [h2] at hIH
            rw [h1]
            exact hIH

/-! From the chain invariant to pairwise slot discipline. -/

lemma chainFrom_le_start {e : Int} {l : List Target} (h : chainFrom e l)
    (hl : ∀ t ∈ l, t.start ≤ t.«end») : ∀ t ∈ l, e ≤ t.start := by
  induction l generalizing e with
  | nil => intro t ht; cases ht
  | cons a as ih =>
    rcases h with ⟨h1, h2⟩
    intro t ht
    rcases List.mem_cons.mp ht with rfl | ht'
    · exact h1
    · have ha : a.start ≤ a.«end» := hl a (List.mem_cons_self _ _)
      have h3 := ih h2 (fun u hu => hl u (List.mem_cons_of_mem _ hu)) t ht'
      omega

lemma chainFrom_pairwise {e : Int} {l : List Target} (h : chainFrom e l)
    (hl : ∀ t ∈ l, t.start ≤ t.«end») :
    l.Pairwise (fun a b => a.«end» ≤ b.start) := by
  induction l generalizing e with
  | nil => exact List.Pairwise.nil
  | cons a as ih =>
    rcases h with ⟨_, h2⟩
    have hl' : ∀ t ∈ as, t.start ≤ t.«end» := fun u hu => hl u (List.mem_cons_of_mem _ hu)
    exact List.pairwise_cons.mpr ⟨chainFrom_le_start h2 hl', ih h2 hl'⟩

lemma chainAfter_pairwise {o : Option Int} {l : List Target} (h : chainAfter o l)
    (hl : ∀ t ∈ l, t.start ≤ t.«end») :
    l.Pairwise (fun a b => a.«end» ≤ b.start) := by
  cases o with
  | some e => exact chainFrom_pairwise h hl
  | none =>
    cases l with
    | nil => exact List.Pairwise.nil
    | cons a as =>
      have hl' : ∀ t ∈ as, t.start ≤ t.«end» := fun u hu => hl u (List.mem_cons_of_mem _ hu)
      exact List.pairwise_cons.mpr ⟨chainFrom_le_start h hl', chainFrom_pairwise h hl'⟩

lemma sweep_obs_mem (l : List (Nat × Target)) (threads : List Int) {t : Target}
    (ht : t ∈ ((sweep threads l).1).map Prod.snd) :
    ∃ u ∈ l.map Prod.snd, obs u = obs t := by
  have hobs : (((sweep threads l).1).map Prod.snd).map obs = (l.map Prod.snd).map obs := by
    have h := congrArg (List.map Prod.snd) (sweep_map_key_obs l threads)
    simpa [List.map_map, Function.comp] using h
  have h1 : obs t ∈ (l.map Prod.snd).map obs := by
    rw [← hobs]; exact List.mem_map_of_mem obs ht
  rcases List.mem_map.mp h1 with ⟨u, hu, he⟩
  exact ⟨u, hu, he⟩

lemma sweep_pairwise (l : List (Nat × Target)) (threads : List Int)
    (h : ∀ p ∈ l, p.2.start ≤ p.2.«end» ∧ p.2.thread = none) :
    (((sweep threads l).1).map Prod.snd).Pairwise slotOrdered := by
  have hO : ∀ t ∈ ((sweep threads l).1).map Prod.snd, t.start ≤ t.«end» := by
    intro t ht
    rcases sweep_obs_mem l threads ht with ⟨u, hu, he⟩
    rcases List.mem_map.mp hu with ⟨p, hp, rfl⟩
    have h1 := (h p hp).1
    have h2 : p.2.start = t.start ∧ p.2.«end» = t.«end» ∧ p.2.name = t.name ∧
        p.2.hash = t.hash := by
      simpa [obs, Prod.ext_iff] using he
    rcases h2 with ⟨e1, e2, _, _⟩
    omega
  have hslot : ∀ i : Nat,
      (((sweep threads l).1).map Prod.snd).Pairwise
        (fun a b => a.thread = some i → b.thread = some i → a.«end» ≤ b.start) := by
    intro i
    have hchain := sweep_chain l threads h i
    have hfl : ∀ t ∈ slotTargets i (((sweep threads l).1).map Prod.snd), t.start ≤ t.«end» :=
      fun t ht => hO t (List.mem_of_mem_filter ht)
    have hp := chainAfter_pairwise hchain hfl
    exact List.pairwise_filter.mp hp
  rw [List.pairwise_iff_getElem]
  intro a b ha hb hab
  intro i h1 h2
  exact (List.pairwise_iff_getElem.mp (hslot i)) a b ha hb hab h1 h2

/-! Write-back from sweep order to arrival order. -/

lemma sweepOut_keys_perm (build : Build) :
    ((sweepOut build).map Prod.fst).Perm (List.range build.length) := by
  have h1 : (sweepOut build).map Prod.fst = (sortedEnum build).map Prod.fst :=
    sweep_map_fst _ _
  have h2 : ((sortedEnum build).map Prod.fst).Perm (build.enum.map Prod.fst) :=
    (pySorted_perm _).map _
  rw [h1]
  simpa [List.enum_map_fst] using h2

lemma sweepOut_keys_nodup (build : Build) : ((sweepOut build).map Prod.fst).Nodup :=
  ((sweepOut_keys_perm build).nodup_iff).mpr (List.nodup_range _)

lemma find_key (build : Build) {j : Nat} (hj : j < build.length) :
    ∃ q, (sweepOut build).find? (fun q => q.1 == j) = some q ∧ q.1 = j ∧
      q ∈ sweepOut build := by
  have hmem : j ∈ (sweepOut build).map Prod.fst :=
    (sweepOut_keys_perm build).mem_iff.mpr (List.mem_range.mpr hj)
  rcases List.mem_map.mp hmem with ⟨q, hq, hq1⟩
  have hsome : ((sweepOut build).find? (fun r => r.1 == j)).isSome :=
    List.find?_isSome.mpr ⟨q, hq, by simp [hq1]⟩
  rcases Option.isSome_iff_exists.mp hsome with ⟨r, hr⟩
  exact ⟨r, hr, by simpa using List.find?_some hr, List.mem_of_find?_eq_some hr⟩

lemma assign_threads_def (build : Build) :
    assign_threads build = build.enum.map (fun p =>
      match (sweepOut build).find? (fun q => q.1 == p.1) with
      | some q => q.2
      | none => p.2) := rfl

lemma assign_threads_length (build : Build) :
    (assign_threads build).length = build.length := by
  rw [assign_threads_def]; simp

lemma assign_threads_getElem (build : Build) {j : Nat} (hj : j < build.length)
    (hj2 : j < (assign_threads build).length) :
    ∃ q ∈ sweepOut build, q.1 = j ∧ (assign_threads build).get ⟨j, hj2⟩ = q.2 := by
  rcases find_key build hj with ⟨q, hfind, hq1, hqmem⟩
  refine ⟨q, hqmem, hq1, ?_⟩
  simp only [List.get_eq_getElem, assign_threads_def, List.getElem_map, List.getElem_enum, hfind]

lemma mem_sortedEnum (build : Build) {p : Nat × Target} (hp : p ∈ sortedEnum build) :
    ∃ h1 : p.1 < build.length, build.get ⟨p.1, h1⟩ = p.2 := by
  have h1 : p ∈ build.enum := (pySorted_perm _).mem_iff.mp hp
  have h2 : build[p.1]? = some p.2 := by
    have := List.mem_enum_iff_getElem?.mp h1
    simpa using this
  have h3 : p.1 < build.length := by
    by_contra hc
    rw [List.getElem?_eq_none (by omega)] at h2
    cases h2
  refine ⟨h3, ?_⟩
  have h4 : build[p.1]? = some (build.get ⟨p.1, h3⟩) := by
    simp [List.getElem?_eq_getElem h3]
  rw [h4] at h2
  exact Option.some.inj h2

lemma sweepOut_obs (build : Build) {q : Nat × Target} (hq : q ∈ sweepOut build) :
    ∃ h1 : q.1 < build.length, obs q.2 = obs (build.get ⟨q.1, h1⟩) := by
  obtain ⟨qk, qv⟩ := q
  have hkey : (qk, obs qv) ∈ (sortedEnum build).map (fun p => (p.1, obs p.2)) := by
    have h2 : (qk, obs qv) ∈ (sweepOut build).map (fun p => (p.1, obs p.2)) :=
      List.mem_map_of_mem _ hq
    rwa [show (sweepOut build).map (fun p => (p.1, obs p.2)) =
      (sortedEnum build).map (fun p => (p.1, obs p.2)) from
        sweep_map_key_obs (sortedEnum build) [0]] at h2
  rcases List.mem_map.mp hkey with ⟨⟨pk, pv⟩, hp, he⟩
  injection he with he1 he2
  subst he1
  rcases mem_sortedEnum build hp with ⟨hlt, hget⟩
  exact ⟨hlt, by rw [← he2, hget]⟩

lemma sortedEnum_hyps (build : Build) (hse : ∀ t ∈ build, t.start ≤ t.«end»)
    (hth : ∀ t ∈ build, t.thread = none) :
    ∀ p ∈ sortedEnum build, p.2.start ≤ p.2.«end» ∧ p.2.thread = none := by
  intro p hp
  rcases mem_sortedEnum build hp with ⟨h1, hget⟩
  have hmem : p.2 ∈ build := hget ▸ build.get_mem p.1 h1
  exact ⟨hse _ hmem, hth _ hmem⟩

lemma assign_threads_obs (build : Build) :
    (assign_threads build).map obs = build.map obs := by
  have hlen := assign_threads_length build
  apply List.ext_getElem (by simp [hlen])
  intro j h1 h2
  simp only [List.getElem_map]
  have hjb : j < build.length := by simpa using h2
  have hj2 : j < (assign_threads build).length := by rw [hlen]; exact hjb
  rcases assign_threads_getElem build hjb hj2 with ⟨q, hqmem, hq1, hget⟩
  rcases sweepOut_obs build hqmem with ⟨hlt, hobs⟩
  subst hq1
  simp only [List.get_eq_getElem] at hget hobs
  rw [hget, hobs]

lemma assign_threads_isSome (build : Build) :
    ∀ t ∈ assign_threads build, t.thread.isSome = true := by
  intro t ht
  rw [assign_threads_def] at ht
  rcases List.mem_map.mp ht with ⟨p, hpmem, hpe⟩
  have hp2 : build[p.1]? = some p.2 := by
    simpa using List.mem_enum_iff_getElem?.mp hpmem
  have hplt : p.1 < build.length := by
    by_contra hc
    rw [List.getElem?_eq_none (by omega)] at hp2
    cases hp2
  rcases find_key build hplt with ⟨q, hfind, hq1, hqmem⟩
  rw [← hpe]
  simp only [hfind]
  exact sweep_isSome _ _ q hqmem

/-- C10: `assign_threads` changes nothing except the `thread` slots: the
returned build has the same records in the same arrival order with
unchanged start, end, name and hash, and every record's slot is set to a
non-`None` (necessarily non-negative, being a `Nat`) index. -/
theorem assign_threads_frame (build : Build) :
    (assign_threads build).map obs = build.map obs ∧
    (assign_threads build).all (fun t => t.thread.isSome) = true :=
  ⟨assign_threads_obs build, List.all_eq_true.mpr (assign_threads_isSome build)⟩

lemma assign_threads_no_overlap_aux (build : Build)
    (hse : ∀ t ∈ build, t.start ≤ t.«end») (hth : ∀ t ∈ build, t.thread = none)
    (j k : Nat) (hj : j < (assign_threads build).length)
    (hk : k < (assign_threads build).length) (hjk : j ≠ k) (i : Nat)
    (hsj : ((assign_threads build).get ⟨j, hj⟩).thread = some i)
    (hsk : ((assign_threads build).get ⟨k, hk⟩).thread = some i) :
    ((assign_threads build).get ⟨j, hj⟩).«end» ≤ ((assign_threads build).get ⟨k, hk⟩).start ∨
      ((assign_threads build).get ⟨k, hk⟩).«end» ≤ ((assign_threads build).get ⟨j, hj⟩).start := by
  have hlen := assign_threads_length build
  have hjb : j < build.length := hlen ▸ hj
  have hkb : k < build.length := hlen ▸ hk
  rcases assign_threads_getElem build hjb hj with ⟨qj, hqjmem, hqj1, hgetj⟩
  rcases assign_threads_getElem build hkb hk with ⟨qk, hqkmem, hqk1, hgetk⟩
  have hpair : ((sweepOut build).map Prod.snd).Pairwise slotOrdered :=
    sweep_pairwise (sortedEnum build) [0] (sortedEnum_hyps build hse hth)
  rcases List.getElem_of_mem hqjmem with ⟨pj, hpj, hpje⟩
  rcases List.getElem_of_mem hqkmem with ⟨pk, hpk, hpke⟩
  have hne : pj ≠ pk := by
    intro he
    apply hjk
    subst he
    rw [hpje] at hpke
    rw [← hqj1, ← hqk1, hpke]
  have hpj' : pj < ((sweepOut build).map Prod.snd).length := by simpa using hpj
  have hpk' : pk < ((sweepOut build).map Prod.snd).length := by simpa using hpk
  rw [hgetj] at hsj ⊢
  rw [hgetk] at hsk ⊢
  rcases Nat.lt_or_ge pj pk with hlt | hge
  · have h := (List.pairwise_iff_getElem.mp hpair) pj pk hpj' hpk' hlt
    simp only [List.getElem_map, hpje, hpke] at h
    exact Or.inl (h i hsj hsk)
  · have hlt' : pk < pj := by omega
    have h := (List.pairwise_iff_getElem.mp hpair) pk pj hpk' hpj' hlt'
    simp only [List.getElem_map, hpje, hpke] at h
    exact Or.inr (h i hsk hsj)

/-- C1: in any invocation whose records all satisfy `end ≥ start` (and are
still unscheduled, as every record of a parsed invocation is), after
`assign_threads` runs, two distinct records sharing a slot never overlap
under the non-strict rule: one of them ends no later than the other
starts. -/
theorem assign_threads_no_overlap (build : Build)
    (hse : ∀ t ∈ build, t.start ≤ t.«end») (hth : ∀ t ∈ build, t.thread = none)
    (j k : Nat) (hj : j < (assign_threads build).length)
    (hk : k < (assign_threads build).length) (hjk : j ≠ k) (i : Nat)
    (hsj : ((assign_threads build).get ⟨j, hj⟩).thread = some i)
    (hsk : ((assign_threads build).get ⟨k, hk⟩).thread = some i) :
    ((assign_threads build).get ⟨j, hj⟩).«end» ≤ ((assign_threads build).get ⟨k, hk⟩).start ∨
      ((assign_threads build).get ⟨k, hk⟩).«end» ≤ ((assign_threads build).get ⟨j, hj⟩).start :=
  assign_threads_no_overlap_aux build hse hth j k hj hk hjk i hsj hsk

/-- Witness for C1: a concrete three-record invocation; records at arrival
positions 0 and 2 share slot 0 and satisfy the non-strict no-overlap rule. -/
theorem assign_threads_no_overlap_witness :
    ([⟨0, 10, "a", "h1", none⟩, ⟨2, 8, "b", "h2", none⟩,
        ⟨10, 20, "c", "h3", none⟩] : Build).all
      (fun t => decide (t.start ≤ t.«end»)) = true ∧
    (((assign_threads [⟨0, 10, "a", "h1", none⟩, ⟨2, 8, "b", "h2", none⟩,
        ⟨10, 20, "c", "h3", none⟩]).get ⟨0, by decide⟩).«end» ≤
        ((assign_threads [⟨0, 10, "a", "h1", none⟩, ⟨2, 8, "b", "h2", none⟩,
        ⟨10, 20, "c", "h3", none⟩]).get ⟨2, by decide⟩).start ∨
      ((assign_threads [⟨0, 10, "a", "h1", none⟩, ⟨2, 8, "b", "h2", none⟩,
        ⟨10, 20, "c", "h3", none⟩]).get ⟨2, by decide⟩).«end» ≤
        ((assign_threads [⟨0, 10, "a", "h1", none⟩, ⟨2, 8, "b", "h2", none⟩,
        ⟨10, 20, "c", "h3", none⟩]).get ⟨0, by decide⟩).start) := by
  constructor
  · decide
  · exact assign_threads_no_overlap
      [⟨0, 10, "a", "h1", none⟩, ⟨2, 8, "b", "h2", none⟩, ⟨10, 20, "c", "h3", none⟩]
      (by decide) (by decide) 0 2 (by decide) (by decide) (by decide) 0
      (by decide) (by decide)

/-! Claims C3 and C4: the run segmenter's boundary rules. -/

/-- Counterexample for C3: an incoming record that shares only the NAME
with an existing record (different `contentHash`), with no end-time
regression, still triggers a new invocation: `need_new_build` answers
`true` where the claim predicts the record joins the current invocation. -/
theorem need_new_build_name_only_counterexample :
    need_new_build [⟨0, 10, "X", "h1", none⟩] ⟨10, 20, "X", "h2", none⟩ = true ∧
    ¬((⟨10, 20, "X", "h2", none⟩ : Target).«end» <
        (⟨0, 10, "X", "h1", none⟩ : Target).«end») ∧
    (⟨0, 10, "X", "h1", none⟩ : Target).hash ≠ (⟨10, 20, "X", "h2", none⟩ : Target).hash := by
  refine ⟨rfl, by decide, by decide⟩

/-- C3 (amended): for an incoming record at a non-empty current invocation
with no end-time regression, a new invocation begins exactly when a record
with the same NAME already exists in it — the `contentHash` is ignored by
`Build.__contains__`. -/
theorem need_new_build_boundary_iff_name (build : Build) (t last : Target)
    (hlast : build.getLast? = some last) (hreg : ¬ t.«end» < last.«end») :
    need_new_build build t = true ↔ ∃ r ∈ build, r.name = t.name := by
  unfold need_new_build
  rw [hlast]
  cases hc : buildContains build t
  case true =>
    simp only [hc, if_true]
    unfold buildContains at hc
    rcases List.any_eq_true.mp hc with ⟨r, hr, hname⟩
    exact iff_of_true trivial ⟨r, hr, by simpa using hname⟩
  case false =>
    simp only [hc, if_false]
    constructor
    · intro hdec
      exact absurd (of_decide_eq_true hdec) hreg
    · rintro ⟨r, hr, hname⟩
      unfold buildContains at hc
      have h2 : build.any (fun u => u.name == t.name) = true :=
        List.any_eq_true.mpr ⟨r, hr, by simpa using hname⟩
      rw [hc] at h2
      cases h2

/-- Witness for C3 (amended): the boundary fires on a same-name,
different-hash duplicate by the amended rule. -/
theorem need_new_build_boundary_iff_name_witness :
    need_new_build [⟨0, 10, "X", "h1", none⟩] ⟨10, 20, "X", "h2", none⟩ = true := by
  have h := need_new_build_boundary_iff_name [⟨0, 10, "X", "h1", none⟩]
    ⟨10, 20, "X", "h2", none⟩ ⟨0, 10, "X", "h1", none⟩ rfl (by decide)
  exact h.mpr ⟨⟨0, 10, "X", "h1", none⟩, by simp, rfl⟩

/-- Counterexample for C4: at an invocation with no record of the same
identity (name+hash differ in the hash), the claimed equivalence "boundary
iff end regression" fails: the boundary fires although the incoming end is
larger. -/
theorem need_new_build_end_iff_counterexample :
    ¬(need_new_build [⟨0, 10, "X", "h1", none⟩] ⟨1, 12, "X", "h2", none⟩ = true ↔
        (12 : Int) < 10) ∧
    ([⟨0, 10, "X", "h1", none⟩] : Build).all
      (fun r => !(r.name == "X" && r.hash == "h2")) = true := by
  constructor
  · intro h
    have : (12 : Int) < 10 := h.mp rfl
    omega
  · decide

/-- C4 (amended): for an incoming record at a non-empty current invocation
containing no record of the same NAME, a new invocation begins if and only
if the incoming record's end is strictly smaller than the end of the most
recently appended record. -/
theorem need_new_build_iff_end_regression (build : Build) (t last : Target)
    (hlast : build.getLast? = some last) (hname : ∀ r ∈ build, r.name ≠ t.name) :
    need_new_build build t = true ↔ t.«end» < last.«end» := by
  unfold need_new_build
  rw [hlast]
  have hc : buildContains build t = false := by
    unfold buildContains
    rw [List.any_eq_false]
    intro r hr
    simp [hname r hr]
  simp [hc]

/-- Witness for C4: the spec's own example, `A(start=0, end=10)` then
`B(start=1, end=5)` with distinct names: B starts a new invocation since
`5 < 10`. -/
theorem need_new_build_iff_end_regression_witness :
    need_new_build [⟨0, 10, "X", "h1", none⟩] ⟨1, 5, "Y", "h2", none⟩ = true := by
  have h := need_new_build_iff_end_regression [⟨0, 10, "X", "h1", none⟩]
    ⟨1, 5, "Y", "h2", none⟩ ⟨0, 10, "X", "h1", none⟩ rfl (by decide)
  exact h.mpr (by decide)

/-! Claims C5 and C6: reader behaviour on blank lines and missing markers. -/

/-- C5 (code defect): a blank body line is NOT skipped.  File iteration
yields `"\n"` for a blank line, which fails the `line == ''` test and does
not start with `'#'`, so the five-way unpacking of
`"".split('\t') == ['']` raises `ValueError` and aborts the reader.
Comment lines are skipped as claimed (second conjunct). -/
theorem read_log_blank_line_fails :
    read_log ["# ninja log v5\n", "\n"] = .error (.value (.valueErrorUnpack 5 1)) ∧
    read_log ["# ninja log v5\n", "# comment\n", "0\t1\tx\ta\th\n"] =
      .ok [[⟨0, 1, "a", "h", none⟩]] := ⟨rfl, rfl⟩

/-- C6 (code defect): with no version marker the reading loop never
terminates.  Lines before the marker that do not match are indeed skipped
(last conjunct), but when the input is exhausted `readline()` returns `""`
forever and `check_version ""` returns `None` without raising, so
`while version is None:` spins forever — modelled by `LogError.hangs` —
instead of returning with no records. -/
theorem read_log_no_marker_hangs :
    read_log [] = .error .hangs ∧
    read_log ["no marker here\n", "#also no marker\n"] = .error .hangs ∧
    check_version "" = .ok none ∧
    read_log ["junk\n", "# ninja log v5\n"] = .ok [[]] := ⟨rfl, rfl, rfl, rfl⟩

/-! Claim C7: the version gate. -/

lemma findVersion_skip (l : String) (ls : List String) (h : check_version l = .ok none) :
    findVersion (l :: ls) = findVersion ls := by
  simp [findVersion, h]

lemma check_version_of_match {line : String} {v : Nat}
    (hv : ninjaLogMatch line = some v) (hne : v ≠ 5) :
    check_version line = .error ⟨5, v⟩ := by
  have hhead : line.data.head? = some '#' := by
    unfold ninjaLogMatch at hv
    split at hv
    · rename_i heq
      rw [heq]
      rfl
    · cases hv
  unfold check_version
  have h1 : ¬(line ≠ "" ∧ line.data.head? ≠ some '#') := by
    rintro ⟨_, h2⟩
    exact h2 hhead
  rw [if_neg h1, hv]
  have h2 : v ∉ allowed_versions := by simp [allowed_versions, hne]
  show (if v ∈ allowed_versions then Except.ok (some v)
      else
        match pyMinByKey (fun x => ((x : Int) - (v : Int)).natAbs) allowed_versions with
        | some closest => Except.error (VersionError.mk closest v)
        | none => Except.ok none) = Except.error (VersionError.mk 5 v)
  rw [if_neg h2]
  rfl

/-- C7: whenever the first line matching the version-marker pattern
declares a (single-digit, as the pattern captures) version other than 5,
reading fails with the version error before any record is produced,
whatever the body holds; the error carries the declared version and the
closest supported version by absolute distance, which is always 5. -/
theorem read_log_version_gate (pre : List String) (line : String) (body : List String)
    (v : Nat) (hv : ninjaLogMatch line = some v) (hne : v ≠ 5)
    (hpre : ∀ l ∈ pre, check_version l = .ok none) :
    read_log (pre ++ line :: body) = .error (.version ⟨5, v⟩) := by
  induction pre with
  | nil =>
    rw [List.nil_append]
    unfold read_log
    have hfv : findVersion (line :: body) = .error ⟨5, v⟩ := by
      unfold findVersion
      rw [check_version_of_match hv hne]
    rw [hfv]
  | cons p ps ih =>
    have h1 : check_version p = .ok none := hpre p (List.mem_cons_self _ _)
    have h2 : ∀ l ∈ ps, check_version l = .ok none :=
      fun l hl => hpre l (List.mem_cons_of_mem _ hl)
    have ih' := ih h2
    unfold read_log at ih' ⊢
    rw [List.cons_append, findVersion_skip p _ h1]
    exact ih'

/-- Witness for C7: a log declaring version 4 after one junk line fails
with `VersionError(5, 4)` although its body is well-formed. -/
theorem read_log_version_gate_witness :
    read_log ["junk\n", "# ninja log v4\n", "0\t1\tx\ta\th\n"] =
      .error (.version ⟨5, 4⟩) := by
  have h := read_log_version_gate ["junk\n"] "# ninja log v4\n" ["0\t1\tx\ta\th\n"] 4
    rfl (by decide) (by
      intro l hl
      rw [List.mem_singleton.mp hl]
      rfl)
  exact h

/-! Claim C8: malformed body lines. -/

/-- C8 (amended): for a non-blank, non-comment body line, constructing the
record succeeds exactly when the right-stripped line splits at tabs into
exactly five fields whose first two parse as (possibly signed) integers;
otherwise a `ValueError` is raised. -/
theorem parseLine_ok_iff (line : String) (h1 : ¬(line = "" ∨ line.data.head? = some '#')) :
    (∃ t, parseLine line = .ok (some t)) ↔
      ∃ a b c d e, pySplitTab (pyRstrip line) = [a, b, c, d, e] ∧
        (pyInt a).isSome = true ∧ (pyInt b).isSome = true := by
  unfold parseLine
  rw [if_neg h1]
  rcases hsp : pySplitTab (pyRstrip line) with _ | ⟨a, _ | ⟨b, _ | ⟨c, _ | ⟨d, _ | ⟨e, _ | ⟨f, rest⟩⟩⟩⟩⟩⟩ <;>
    simp only [hsp]
  · simp
  · simp
  · simp
  · simp
  · simp
  · -- exactly five fields: success is governed by the two int conversions
    unfold Target.init
    cases hpa : pyInt a with
    | none => simp [hpa]
    | some sa =>
      cases hpb : pyInt b with
      | none => simp [hpa, hpb]
      | some sb =>
        simp only [hpa, hpb]
        refine iff_of_true ⟨_, rfl⟩ ⟨a, b, c, d, e, rfl, ?_, ?_⟩
        · rw [hpa]; rfl
        · rw [hpb]; rfl
  · simp

/-- Witness for C8 (amended): a well-formed five-field line is accepted;
the start field " 7" carries a leading space, exercising `int()`'s
tolerance for surrounding whitespace (`int(" 7") == 7`). -/
theorem parseLine_ok_iff_witness :
    (parseLine " 7\t9\tx\tname\thash\n").isOk = true := by
  have h := parseLine_ok_iff " 7\t9\tx\tname\thash\n" (by decide)
  rcases h.mpr ⟨" 7", "9", "x", "name", "hash", rfl, by decide, by decide⟩ with ⟨t, ht⟩
  rw [ht]
  rfl

/-- Counterexample for C8: a line whose start timestamp is the NEGATIVE
integer -1 is accepted — Python's `int("-1")` parses — although the claim
says a line with a negative timestamp is rejected. -/
theorem parseLine_negative_accepted :
    parseLine "-1\t5\tx\ta\th\n" = .ok (some ⟨-1, 5, "a", "h", none⟩) ∧
    (-1 : Int) < 0 := ⟨rfl, by decide⟩

/-! Claim C9: the trace emitter. -/

lemma flatMap_congr_mem {α β : Type} {l : List α} {f g : α → List β}
    (h : ∀ a ∈ l, f a = g a) : l.flatMap f = l.flatMap g := by
  induction l with
  | nil => rfl
  | cons a as ih =>
    rw [List.flatMap_cons, List.flatMap_cons, h a (List.mem_cons_self _ _),
      ih (fun b hb => h b (List.mem_cons_of_mem _ hb))]

lemma emit_enumFrom (builds : List Build) : ∀ k : Nat,
    (List.enumFrom k builds).flatMap
        (fun p => (assign_threads p.2).map (fun t => target_to_dict t p.1)) =
      (List.range' k builds.length).flatMap (fun pid =>
        (assign_threads (builds.getD (pid - k) [])).map (fun t => target_to_dict t pid)) := by
  induction builds with
  | nil => intro k; rfl
  | cons b bs ih =>
    intro k
    rw [show List.enumFrom k (b :: bs) = (k, b) :: List.enumFrom (k + 1) bs from rfl]
    rw [show List.range' k (b :: bs).length = k :: List.range' (k + 1) bs.length from rfl]
    rw [List.flatMap_cons, List.flatMap_cons]
    congr 1
    · simp
    · rw [ih (k + 1)]
      apply flatMap_congr_mem
      intro pid hpid
      have h1 : k + 1 ≤ pid := (List.mem_range'_1.mp hpid).1
      have h2 : pid - k = (pid - (k + 1)) + 1 := by omega
      rw [h2]
      rfl

lemma emit_eq_range (builds : List Build) :
    emit builds = (List.range builds.length).flatMap (fun pid =>
      (assign_threads (builds.getD pid [])).map (fun t => target_to_dict t pid)) := by
  have h := emit_enumFrom builds 0
  rw [show List.range builds.length = List.range' 0 builds.length from
    List.range_eq_range' _]
  rw [show emit builds = (List.enumFrom 0 builds).flatMap
      (fun p => (assign_threads p.2).map (fun t => target_to_dict t p.1)) from rfl]
  rw [h]
  apply flatMap_congr_mem
  intro pid _
  rw [show pid - 0 = pid from rfl]

/-- C9: every emitted trace event carries the target name, the fixed
category "targets", phase "X", timestamp `start * 1000`, duration
`(end - start) * 1000`, the zero-based ordinal of the owning invocation as
process id, the assigned slot as thread id and an empty argument map, in
invocation order; and a log with a valid header and no body lines emits
the empty array. -/
theorem emit_fields_and_empty :
    (∀ builds : List Build, emit builds =
      (List.range builds.length).flatMap (fun pid =>
        (assign_threads (builds.getD pid [])).map (fun t =>
          { name := t.name, cat := "targets", ph := "X", ts := t.start * 1000,
            dur := (t.«end» - t.start) * 1000, pid := pid, tid := t.thread,
            args := [] }))) ∧
    mainEvents ["# ninja log v5\n"] = .ok [] := by
  constructor
  · intro builds
    rw [emit_eq_range]
    rfl
  · rfl

/-! Claim C2: minimality of the slot count. -/

lemma le_foldr_max {l : List Nat} {a : Nat} (h : a ∈ l) : a ≤ l.foldr max 0 := by
  induction l with
  | nil => cases h
  | cons b bs ih =>
    rcases List.mem_cons.mp h with rfl | h'
    · exact Nat.le_max_left _ _
    · exact le_trans (ih h') (Nat.le_max_right _ _)

lemma foldr_max_attained (l : List Nat) : l.foldr max 0 = 0 ∨ l.foldr max 0 ∈ l := by
  induction l with
  | nil => exact Or.inl rfl
  | cons b bs ih =>
    rcases Nat.le_total (bs.foldr max 0) b with h | h
    · right
      rw [List.foldr_cons, Nat.max_eq_left h]
      exact List.mem_cons_self _ _
    · rw [List.foldr_cons, Nat.max_eq_right h]
      rcases ih with h0 | hmem
      · rcases Nat.eq_zero_of_le_zero (h0 ▸ h) with rfl
        exact Or.inl h0
      · exact Or.inr (List.mem_cons_of_mem _ hmem)

lemma exists_max_start (l : List Target) (hne : l ≠ []) :
    ∃ t0 ∈ l, ∀ t ∈ l, t.start ≤ t0.start := by
  induction l with
  | nil => exact absurd rfl hne
  | cons a as ih =>
    cases as with
    | nil =>
      refine ⟨a, List.mem_cons_self _ _, ?_⟩
      intro t ht
      rcases List.mem_cons.mp ht with rfl | h'
      · exact le_refl _
      · cases h'
    | cons b bs =>
      rcases ih (by simp) with ⟨t0, ht0, hmax⟩
      rcases le_total t0.start a.start with h | h
      · refine ⟨a, List.mem_cons_self _ _, ?_⟩
        intro t ht
        rcases List.mem_cons.mp ht with rfl | h'
        · exact le_refl _
        · exact le_trans (hmax t h') h
      · refine ⟨t0, List.mem_cons_of_mem _ ht0, ?_⟩
        intro t ht
        rcases List.mem_cons.mp ht with rfl | h'
        · exact h
        · exact hmax t h'

/-- The in-flight predicate used by `inFlight`. -/
lemma inFlight_mono_pred (ts : List Target) {x s : Int}
    (h : ∀ t ∈ ts, (decide (t.start ≤ x) && decide (x < t.«end»)) = true →
      (decide (t.start ≤ s) && decide (s < t.«end»)) = true) :
    inFlight ts x ≤ inFlight ts s :=
  List.countP_mono_left h

lemma mem_start_le_maxInFlight (ts : List Target) {t : Target} (ht : t ∈ ts) :
    inFlight ts t.start ≤ maxInFlight ts :=
  le_foldr_max (List.mem_map_of_mem (fun u => inFlight ts u.start) ht)

/-- The start-instant maximum really bounds the in-flight count at every
instant: the supremum over all instants is attained at a start. -/
lemma inFlight_le_maxInFlight (ts : List Target) (x : Int) :
    inFlight ts x ≤ maxInFlight ts := by
  by_cases hF : ts.filter (fun t => decide (t.start ≤ x) && decide (x < t.«end»)) = []
  · have h0 : inFlight ts x = 0 := by
      rw [inFlight, List.countP_eq_length_filter, hF]
      rfl
    rw [h0]
    exact Nat.zero_le _
  · rcases exists_max_start _ hF with ⟨t0, ht0, hmax⟩
    have ht0' := List.mem_filter.mp ht0
    have ht0x : t0.start ≤ x := by
      have := ht0'.2
      simp only [Bool.and_eq_true, decide_eq_true_eq] at this
      exact this.1
    have hstep : inFlight ts x ≤ inFlight ts t0.start := by
      apply inFlight_mono_pred
      intro t htmem hpred
      simp only [Bool.and_eq_true, decide_eq_true_eq] at hpred ⊢
      have htF : t ∈ ts.filter (fun t => decide (t.start ≤ x) && decide (x < t.«end»)) := by
        rw [List.mem_filter]
        exact ⟨htmem, by simp [hpred.1, hpred.2]⟩
      exact ⟨hmax t htF, lt_of_le_of_lt ht0x hpred.2⟩
    exact le_trans hstep (mem_start_le_maxInFlight ts ht0'.1)

lemma maxInFlight_attained (ts : List Target) :
    maxInFlight ts = 0 ∨ ∃ x : Int, inFlight ts x = maxInFlight ts := by
  rcases foldr_max_attained (ts.map (fun t => inFlight ts t.start)) with h0 | hmem
  · exact Or.inl h0
  · rcases List.mem_map.mp hmem with ⟨t, _, he⟩
    exact Or.inr ⟨t.start, he⟩

lemma countP_set_of_false {l : List Int} {i : Nat} {b : Int} {p : Int → Bool}
    (hi : i < l.length) (h : p (l.get ⟨i, hi⟩) = false) :
    (l.set i b).countP p = l.countP p + (if p b then 1 else 0) := by
  induction l generalizing i with
  | nil => cases hi
  | cons a as ih =>
    cases i with
    | zero =>
      have ha : p a = false := h
      simp [List.set_cons_zero, List.countP_cons, ha]
    | succ n =>
      have hn : n < as.length := Nat.lt_of_succ_lt_succ hi
      simp only [List.set_cons_succ, List.countP_cons]
      rw [ih hn h]
      omega

lemma busy_set (threads : List Int) {i : Nat} {x b : Int} (hi : i < threads.length)
    (hold : threads.get ⟨i, hi⟩ ≤ x) :
    busy (threads.set i b) x = busy threads x + (if x < b then 1 else 0) := by
  unfold busy
  rw [countP_set_of_false hi (decide_eq_false (not_lt_of_le hold))]
  congr 1
  by_cases hb : x < b <;> simp [hb]

lemma busy_append (threads : List Int) (x e : Int) :
    busy (threads ++ [e]) x = busy threads x + (if x < e then 1 else 0) := by
  unfold busy
  rw [List.countP_append]
  congr 1
  by_cases hb : x < e <;> simp [hb]

lemma busy_eq_length (threads : List Int) (x : Int)
    (h : ∀ e ∈ threads, x < e) : busy threads x = threads.length := by
  unfold busy
  rw [List.countP_eq_length]
  intro e he
  simpa using h e he

lemma inFlight_append_one (ts : List Target) (t : Target) (x : Int) :
    inFlight (ts ++ [t]) x =
      inFlight ts x + (if (decide (t.start ≤ x) && decide (x < t.«end»)) = true then 1 else 0) := by
  unfold inFlight
  rw [List.countP_append]
  congr 1
  by_cases hb : (decide (t.start ≤ x) && decide (x < t.«end»)) = true <;> simp [hb]

lemma subperm_inFlight_le {l₁ l₂ : List Target} (h : l₁.Subperm l₂) (x : Int) :
    inFlight l₁ x ≤ inFlight l₂ x := by
  rcases h with ⟨l, hperm, hsub⟩
  calc inFlight l₁ x = inFlight l x := (hperm.countP_eq _).symm
    _ ≤ inFlight l₂ x := hsub.countP_le _

/-- Core counting argument: along the sweep of a start-sorted list of
positive-length, non-negative records, the number of slots never exceeds
the maximum in-flight count — a new slot is only opened at an instant
where every existing slot is still busy. -/
lemma sweep_le : ∀ (rem : List (Nat × Target)) (threads : List Int)
    (processed all : List Target),
    (∀ p ∈ rem, ∀ t ∈ processed, t.start ≤ p.2.start) →
    rem.Pairwise (fun a b => a.2.start ≤ b.2.start) →
    (∀ p ∈ rem, 0 ≤ p.2.start ∧ p.2.start < p.2.«end» ∧ p.2.thread = none) →
    (processed ++ rem.map Prod.snd).Subperm all →
    (∀ x : Int, 0 ≤ x → (∀ t ∈ processed, t.start ≤ x) →
      busy threads x ≤ inFlight processed x) →
    (sweep threads rem).2.length ≤ max threads.length (maxInFlight all) := by
  intro rem
  induction rem with
  | nil => intro threads processed all _ _ _ _ _; exact le_max_left _ _
  | cons q rest ih =>
    intro threads processed all hsort1 hsort2 hrem hsub hinv
    obtain ⟨j, t⟩ := q
    have ht0 : 0 ≤ t.start := (hrem (j, t) (List.mem_cons_self _ _)).1
    have hts : t.start < t.«end» := (hrem (j, t) (List.mem_cons_self _ _)).2.1
    have hth : t.thread = none := (hrem (j, t) (List.mem_cons_self _ _)).2.2
    have hsort2' := (List.pairwise_cons.mp hsort2).2
    have hhead : ∀ p ∈ rest, t.start ≤ p.2.start := (List.pairwise_cons.mp hsort2).1
    have hsort1' : ∀ p ∈ rest, ∀ u ∈ processed ++ [t], u.start ≤ p.2.start := by
      intro p hp u hu
      rcases List.mem_append.mp hu with hu' | hu'
      · exact hsort1 p (List.mem_cons_of_mem _ hp) u hu'
      · rcases List.mem_singleton.mp hu' with rfl
        exact hhead p hp
    have hrem' : ∀ p ∈ rest, 0 ≤ p.2.start ∧ p.2.start < p.2.«end» ∧ p.2.thread = none :=
      fun p hp => hrem p (List.mem_cons_of_mem _ hp)
    have hsub' : ((processed ++ [t]) ++ rest.map Prod.snd).Subperm all := by
      have he : (processed ++ [t]) ++ rest.map Prod.snd =
          processed ++ ((j, t) :: rest).map Prod.snd := by simp
      rw [he]
      exact hsub
    have hinc : ∀ x : Int, t.start ≤ x →
        inFlight (processed ++ [t]) x =
          inFlight processed x + (if x < t.«end» then 1 else 0) := by
      intro x hx
      rw [inFlight_append_one]
      congr 1
      by_cases hxe : x < t.«end»
      · simp [hx, hxe]
      · simp [hxe]
    have hmemt : t ∈ processed ++ [t] :=
      List.mem_append.mpr (Or.inr (List.mem_singleton.mpr rfl))
    cases hf : findSlot threads t.start with
    | some i0 =>
      have ha : assignTarget threads t =
          ({ t with thread := some i0 }, threads.set i0 t.«end») := by
        simp [assignTarget, hf]
      rcases findSlot_some hf with ⟨hlt, hle⟩
      have hinv' : ∀ x : Int, 0 ≤ x → (∀ u ∈ processed ++ [t], u.start ≤ x) →
          busy (threads.set i0 t.«end») x ≤ inFlight (processed ++ [t]) x := by
        intro x hx hall
        have hallp : ∀ u ∈ processed, u.start ≤ x :=
          fun u hu => hall u (List.mem_append.mpr (Or.inl hu))
        have hxt : t.start ≤ x := hall t hmemt
        rw [busy_set threads hlt (le_trans hle hxt), hinc x hxt]
        exact Nat.add_le_add_right (hinv x hx hallp) _
      have hres := ih (threads.set i0 t.«end») (processed ++ [t]) all
        hsort1' hsort2' hrem' hsub' hinv'
      rw [sweep_cons, ha]
      show (sweep (threads.set i0 t.«end») rest).2.length ≤
        max threads.length (maxInFlight all)
      calc (sweep (threads.set i0 t.«end») rest).2.length
          ≤ max (threads.set i0 t.«end»).length (maxInFlight all) := hres
        _ = max threads.length (maxInFlight all) := by rw [List.length_set]
    | none =>
      have ha : assignTarget threads t =
          ({ t with thread := some threads.length }, threads ++ [t.«end»]) := by
        simp [assignTarget, hf, hth]
      have hallgt : ∀ e ∈ threads, t.start < e := findSlot_none hf
      have hbusy : busy threads t.start = threads.length := busy_eq_length _ _ hallgt
      have hallp : ∀ u ∈ processed, u.start ≤ t.start :=
        fun u hu => hsort1 (j, t) (List.mem_cons_self _ _) u hu
      have h1 : threads.length ≤ inFlight processed t.start := by
        rw [← hbusy]
        exact hinv t.start ht0 hallp
      have h2 : inFlight (processed ++ [t]) t.start = inFlight processed t.start + 1 := by
        rw [hinc t.start (le_refl _)]
        simp [hts]
      have h3 : (processed ++ [t]).Subperm all := by
        refine List.Subperm.trans ?_ hsub
        have hsl : (processed ++ [t]).Sublist (processed ++ ((j, t) :: rest).map Prod.snd) := by
          apply List.Sublist.append_left
          exact List.Sublist.cons₂ t (List.nil_sublist _)
        exact hsl.subperm
      have h4 : inFlight (processed ++ [t]) t.start ≤ inFlight all t.start :=
        subperm_inFlight_le h3 _
      have htall : t ∈ all := h3.subset hmemt
      have h5 : inFlight all t.start ≤ maxInFlight all := mem_start_le_maxInFlight all htall
      have hM : threads.length + 1 ≤ maxInFlight all := by omega
      have hinv' : ∀ x : Int, 0 ≤ x → (∀ u ∈ processed ++ [t], u.start ≤ x) →
          busy (threads ++ [t.«end»]) x ≤ inFlight (processed ++ [t]) x := by
        intro x hx hall
        have hallp' : ∀ u ∈ processed, u.start ≤ x :=
          fun u hu => hall u (List.mem_append.mpr (Or.inl hu))
        have hxt : t.start ≤ x := hall t hmemt
        rw [busy_append, hinc x hxt]
        exact Nat.add_le_add_right (hinv x hx hallp') _
      have hres := ih (threads ++ [t.«end»]) (processed ++ [t]) all
        hsort1' hsort2' hrem' hsub' hinv'
      rw [sweep_cons, ha]
      show (sweep (threads ++ [t.«end»]) rest).2.length ≤
        max threads.length (maxInFlight all)
      calc (sweep (threads ++ [t.«end»]) rest).2.length
          ≤ max (threads ++ [t.«end»]).length (maxInFlight all) := hres
        _ = max (threads.length + 1) (maxInFlight all) := by simp
        _ = maxInFlight all := Nat.max_eq_right hM
        _ ≤ max threads.length (maxInFlight all) := le_max_right _ _

lemma sweepThreads_le (build : Build)
    (h : ∀ t ∈ build, 0 ≤ t.start ∧ t.start < t.«end» ∧ t.thread = none) :
    (sweepThreads build).length ≤ max 1 (maxInFlight build) := by
  have hperm : ((sortedEnum build).map Prod.snd).Perm build := by
    have h1 : ((sortedEnum build).map Prod.snd).Perm (build.enum.map Prod.snd) :=
      (pySorted_perm _).map _
    simpa [List.enum_map_snd] using h1
  have hsub : (([] : List Target) ++ (sortedEnum build).map Prod.snd).Subperm build := by
    simpa using hperm.subperm
  have hrem : ∀ p ∈ sortedEnum build,
      0 ≤ p.2.start ∧ p.2.start < p.2.«end» ∧ p.2.thread = none := by
    intro p hp
    rcases mem_sortedEnum build hp with ⟨h1, hget⟩
    exact h p.2 (hget ▸ build.get_mem p.1 h1)
  have hinv : ∀ x : Int, 0 ≤ x → (∀ t ∈ ([] : List Target), t.start ≤ x) →
      busy [0] x ≤ inFlight [] x := by
    intro x hx _
    have hd : decide (x < (0 : Int)) = false := decide_eq_false (not_lt.mpr hx)
    have h0 : busy [0] x = 0 := by
      unfold busy
      simp [List.countP_cons, hd]
    rw [h0]
    exact Nat.zero_le _
  have hres := sweep_le (sortedEnum build) [0] [] build
    (by intro p _ t ht; cases ht) (pySorted_pairwise _) hrem hsub hinv
  simpa [sweepThreads] using hres

lemma mem_assign_threads (build : Build) {t : Target} (ht : t ∈ assign_threads build) :
    ∃ q ∈ sweepOut build, q.2 = t := by
  rw [assign_threads_def] at ht
  rcases List.mem_map.mp ht with ⟨p, hpmem, hpe⟩
  have hp2 : build[p.1]? = some p.2 := by
    simpa using List.mem_enum_iff_getElem?.mp hpmem
  have hplt : p.1 < build.length := by
    by_contra hc
    rw [List.getElem?_eq_none (by omega)] at hp2
    cases hp2
  rcases find_key build hplt with ⟨q, hfind, _, hqmem⟩
  refine ⟨q, hqmem, ?_⟩
  rw [← hpe]
  simp only [hfind]

lemma usedSlot_le (build : Build) (hth : ∀ t ∈ build, t.thread = none) :
    usedSlotCount (assign_threads build) ≤ (sweepThreads build).length := by
  have hsorted_none : ∀ p ∈ sortedEnum build, p.2.thread = none := by
    intro p hp
    rcases mem_sortedEnum build hp with ⟨h1, hget⟩
    exact hth p.2 (hget ▸ build.get_mem p.1 h1)
  have hall : ∀ v ∈ (assign_threads build).filterMap (fun t => t.thread),
      v < (sweepThreads build).length := by
    intro v hv
    rcases List.mem_filterMap.mp hv with ⟨t, ht, hvt⟩
    rcases mem_assign_threads build ht with ⟨q, hqmem, hq2⟩
    exact sweep_thread_lt (sortedEnum build) [0] hsorted_none q hqmem v (by rw [hq2, hvt])
  have hd1 : ((assign_threads build).filterMap (fun t => t.thread)).dedup.Nodup :=
    List.nodup_dedup _
  have hsubF : ((assign_threads build).filterMap (fun t => t.thread)).dedup.toFinset ⊆
      Finset.range (sweepThreads build).length := by
    intro v hv
    rw [List.mem_toFinset, List.mem_dedup] at hv
    exact Finset.mem_range.mpr (hall v hv)
  calc usedSlotCount (assign_threads build)
      = ((assign_threads build).filterMap (fun t => t.thread)).dedup.length := rfl
    _ = ((assign_threads build).filterMap (fun t => t.thread)).dedup.toFinset.card :=
        (List.toFinset_card_of_nodup hd1).symm
    _ ≤ (Finset.range (sweepThreads build).length).card := Finset.card_le_card hsubF
    _ = (sweepThreads build).length := Finset.card_range _

lemma assign_threads_pairwise (build : Build)
    (hse : ∀ t ∈ build, t.start ≤ t.«end») (hth : ∀ t ∈ build, t.thread = none) :
    (assign_threads build).Pairwise (fun a b => ∀ i : Nat,
      a.thread = some i → b.thread = some i → a.«end» ≤ b.start ∨ b.«end» ≤ a.start) := by
  rw [List.pairwise_iff_getElem]
  intro u v hu hv huv i h1 h2
  exact assign_threads_no_overlap_aux build hse hth u v hu hv (Nat.ne_of_lt huv) i h1 h2

lemma filterMap_thread_nodup : ∀ F : List Target,
    F.Pairwise (fun a b => a.thread ≠ b.thread) →
    (∀ t ∈ F, t.thread.isSome = true) →
    (F.filterMap (fun t => t.thread)).length = F.length ∧
      (F.filterMap (fun t => t.thread)).Nodup := by
  intro F
  induction F with
  | nil => intro _ _; exact ⟨rfl, List.nodup_nil⟩
  | cons a as ih =>
    intro hpw hsome
    rcases List.pairwise_cons.mp hpw with ⟨hhead, htail⟩
    have hsome' : ∀ t ∈ as, t.thread.isSome = true :=
      fun t ht => hsome t (List.mem_cons_of_mem _ ht)
    rcases Option.isSome_iff_exists.mp (hsome a (List.mem_cons_self _ _)) with ⟨v, hv⟩
    have heq : (a :: as).filterMap (fun t => t.thread) =
        v :: as.filterMap (fun t => t.thread) := by
      rw [List.filterMap_cons]
      simp [hv]
    rw [heq]
    rcases ih htail hsome' with ⟨hlen, hnd⟩
    refine ⟨by simp [hlen], List.nodup_cons.mpr ⟨?_, hnd⟩⟩
    intro hvmem
    rcases List.mem_filterMap.mp hvmem with ⟨b, hb, hbv⟩
    exact hhead b hb (by rw [hv, hbv])

lemma maxInFlight_le_used (build : Build)
    (hse : ∀ t ∈ build, t.start ≤ t.«end») (hth : ∀ t ∈ build, t.thread = none) :
    maxInFlight build ≤ usedSlotCount (assign_threads build) := by
  rcases foldr_max_attained (build.map (fun t => inFlight build t.start)) with h0 | hmem
  · rw [show maxInFlight build =
      (build.map (fun t => inFlight build t.start)).foldr max 0 from rfl, h0]
    exact Nat.zero_le _
  · rcases List.mem_map.mp hmem with ⟨t0, _, he⟩
    have hIF : inFlight (assign_threads build) t0.start = inFlight build t0.start := by
      have hcnt : ∀ l : List Target,
          inFlight l t0.start = (l.map obs).countP
            (fun o => decide (o.1 ≤ t0.start) && decide (t0.start < o.2.1)) := by
        intro l
        rw [List.countP_map]
        rfl
      rw [hcnt, hcnt, assign_threads_obs build]
    have hFlen : ((assign_threads build).filter
        (fun t => decide (t.start ≤ t0.start) && decide (t0.start < t.«end»))).length =
        maxInFlight build := by
      rw [← List.countP_eq_length_filter]
      show inFlight (assign_threads build) t0.start = maxInFlight build
      rw [hIF, he]
      rfl
    have hFpw := (assign_threads_pairwise build hse hth).filter
      (fun t => decide (t.start ≤ t0.start) && decide (t0.start < t.«end»))
    have hFsome : ∀ t ∈ (assign_threads build).filter
        (fun t => decide (t.start ≤ t0.start) && decide (t0.start < t.«end»)),
        t.thread.isSome = true := by
      intro t ht
      rcases mem_assign_threads build (List.mem_of_mem_filter ht) with ⟨q, hq, hq2⟩
      exact hq2 ▸ sweep_isSome _ _ q hq
    have hFne : ((assign_threads build).filter
        (fun t => decide (t.start ≤ t0.start) && decide (t0.start < t.«end»))).Pairwise
        (fun a b => a.thread ≠ b.thread) := by
      refine List.Pairwise.imp_of_mem ?_ hFpw
      intro a b ha hb hR he2
      have hax := (List.mem_filter.mp ha).2
      have hbx := (List.mem_filter.mp hb).2
      simp only [Bool.and_eq_true, decide_eq_true_eq] at hax hbx
      rcases Option.isSome_iff_exists.mp (hFsome a ha) with ⟨i, hai⟩
      have hbi : b.thread = some i := by rw [← he2, hai]
      rcases hR i hai hbi with hle | hle <;> omega
    rcases filterMap_thread_nodup _ hFne hFsome with ⟨hlen2, hnd2⟩
    have hsl : (((assign_threads build).filter
        (fun t => decide (t.start ≤ t0.start) && decide (t0.start < t.«end»))).filterMap
          (fun t => t.thread)).Sublist
        ((assign_threads build).filterMap (fun t => t.thread)) :=
      (List.filter_sublist _).filterMap _
    have hsubF : (((assign_threads build).filter
        (fun t => decide (t.start ≤ t0.start) && decide (t0.start < t.«end»))).filterMap
          (fun t => t.thread)).toFinset ⊆
        ((assign_threads build).filterMap (fun t => t.thread)).toFinset := by
      intro v hv
      rw [List.mem_toFinset] at hv ⊢
      exact hsl.subset hv
    calc maxInFlight build
        = ((assign_threads build).filter
            (fun t => decide (t.start ≤ t0.start) && decide (t0.start < t.«end»))).length :=
          hFlen.symm
      _ = (((assign_threads build).filter
            (fun t => decide (t.start ≤ t0.start) && decide (t0.start < t.«end»))).filterMap
              (fun t => t.thread)).length := hlen2.symm
      _ = (((assign_threads build).filter
            (fun t => decide (t.start ≤ t0.start) && decide (t0.start < t.«end»))).filterMap
              (fun t => t.thread)).toFinset.card := (List.toFinset_card_of_nodup hnd2).symm
      _ ≤ ((assign_threads build).filterMap (fun t => t.thread)).toFinset.card :=
          Finset.card_le_card hsubF
      _ = ((assign_threads build).filterMap (fun t => t.thread)).dedup.length :=
          List.card_toFinset _
      _ = usedSlotCount (assign_threads build) := rfl

/-- Counterexample for C2: under the claim's own hypothesis (`end ≥ start`
only), a zero-duration record starting at another record's start forces a
second slot although no instant has two records in flight — the two
records are not even concurrent under the non-strict rule, since the
zero-duration one ends exactly when it starts. -/
theorem assign_threads_minimal_counterexample :
    ([⟨5, 10, "a", "h1", none⟩, ⟨5, 5, "b", "h2", none⟩] : Build).all
      (fun t => decide (t.start ≤ t.«end»)) = true ∧
    usedSlotCount (assign_threads [⟨5, 10, "a", "h1", none⟩, ⟨5, 5, "b", "h2", none⟩]) = 2 ∧
    maxInFlight [⟨5, 10, "a", "h1", none⟩, ⟨5, 5, "b", "h2", none⟩] = 1 :=
  ⟨by decide, by decide, by decide⟩

/-- C2 (amended): for every invocation whose records have non-negative
starts and strictly positive durations (and are unscheduled), the number
of distinct slots assigned by `assign_threads` equals the maximum number
of records simultaneously in flight at any instant, under the non-strict
availability rule; the second and third conjuncts certify that
`maxInFlight` really is the supremum over all instants. -/
theorem assign_threads_minimal (build : Build)
    (h : ∀ t ∈ build, 0 ≤ t.start ∧ t.start < t.«end» ∧ t.thread = none) :
    usedSlotCount (assign_threads build) = maxInFlight build ∧
    (∀ x : Int, inFlight build x ≤ maxInFlight build) ∧
    (maxInFlight build = 0 ∨ ∃ x : Int, inFlight build x = maxInFlight build) := by
  refine ⟨?_, fun x => inFlight_le_maxInFlight build x, maxInFlight_attained build⟩
  have hth : ∀ t ∈ build, t.thread = none := fun t ht => (h t ht).2.2
  have hse : ∀ t ∈ build, t.start ≤ t.«end» := fun t ht => le_of_lt (h t ht).2.1
  have hub := (usedSlot_le build hth).trans (sweepThreads_le build h)
  have hlb := maxInFlight_le_used build hse hth
  cases build with
  | nil => rfl
  | cons t0 ts =>
    have hmem : t0 ∈ t0 :: ts := List.mem_cons_self _ _
    have h1 : 0 < inFlight (t0 :: ts) t0.start := by
      apply List.countP_pos_iff.mpr
      exact ⟨t0, hmem, by simp [le_refl, (h t0 hmem).2.1]⟩
    have hM1 : 1 ≤ maxInFlight (t0 :: ts) :=
      le_trans h1 (mem_start_le_maxInFlight _ hmem)
    have hmax : max 1 (maxInFlight (t0 :: ts)) = maxInFlight (t0 :: ts) :=
      Nat.max_eq_right hM1
    omega

/-- Witness for C2 (amended): three positive-duration records; two overlap
(slots 0 and 1) and a third reuses slot 0, so both sides equal 2. -/
theorem assign_threads_minimal_witness :
    ([⟨0, 10, "a", "h1", none⟩, ⟨2, 8, "b", "h2", none⟩,
        ⟨10, 20, "c", "h3", none⟩] : Build).all
      (fun t => decide (0 ≤ t.start) && decide (t.start < t.«end»)) = true ∧
    usedSlotCount (assign_threads [⟨0, 10, "a", "h1", none⟩, ⟨2, 8, "b", "h2", none⟩,
        ⟨10, 20, "c", "h3", none⟩]) =
      maxInFlight [⟨0, 10, "a", "h1", none⟩, ⟨2, 8, "b", "h2", none⟩,
        ⟨10, 20, "c", "h3", none⟩] := by
  constructor
  · decide
  · exact (assign_threads_minimal [⟨0, 10, "a", "h1", none⟩, ⟨2, 8, "b", "h2", none⟩,
      ⟨10, 20, "c", "h3", none⟩] (by decide)).1

